import Mathlib

/-!
Verification of the document-structure inference and section-range
resolution core of the BearsPawMainReport build scripts.

Strings are shallowly embedded as lists of Unicode code points
(`List Nat`), so that Python's character-class operations become
arithmetic on `Nat`.  Python `int` page numbers become `Int`.
Font sizes (Python floats used only for exact comparisons and one
exact addition of 3.0 in the sources) become `ℚ`.
-/

/-- Code points of a string literal, for concrete examples. -/
def strOf (s : String) : List Nat :=
  s.toList.map Char.toNat

/-- Python `\s` (Unicode whitespace) membership for a code point. -/
def isPyWs (c : Nat) : Bool :=
  decide ((9 ≤ c ∧ c ≤ 13) ∨ c = 32 ∨ c = 133 ∨ c = 160 ∨ c = 5760 ∨
    (8192 ≤ c ∧ c ≤ 8202) ∨ c = 8232 ∨ c = 8233 ∨ c = 8239 ∨ c = 8287 ∨ c = 12288)

/-- ASCII lower-casing of a code point, modelling `str.lower` on the
ASCII range used by the report titles. -/
def lowerCp (c : Nat) : Nat :=
  if 65 ≤ c ∧ c ≤ 90 then c + 32 else c

/-- ASCII decimal digit test, modelling `str.isdigit` / regex `\d` on
the ASCII range. -/
def isDigitCp (c : Nat) : Bool :=
  decide (48 ≤ c ∧ c ≤ 57)

/-- Characters admitted by the slug character class `[a-z0-9]`. -/
def isGoodCp (c : Nat) : Bool :=
  decide ((97 ≤ c ∧ c ≤ 122) ∨ (48 ≤ c ∧ c ≤ 57))

/-- Drop the longest leading run of characters satisfying `p`
(the `lstrip` half of Python's `strip`). -/
def dropLeadP (p : Nat → Bool) : List Nat → List Nat
  | [] => []
  | c :: rest => if p c then dropLeadP p rest else c :: rest

/-- Python `str.strip(chars)`: drop leading and trailing runs of
characters satisfying `p`. -/
def stripP (p : Nat → Bool) (l : List Nat) : List Nat :=
  (dropLeadP p (dropLeadP p l).reverse).reverse

/-- Collapse every run of two or more adjacent occurrences of the
code point `k` into a single occurrence.  Together with a map sending
each character of a class to `k`, this models `re.sub(cls+, k)`. -/
def squeezeRuns (k : Nat) : List Nat → List Nat
  | [] => []
  | [c] => [c]
  | c :: d :: rest =>
    if c = k ∧ d = k then squeezeRuns k (d :: rest)
    else c :: squeezeRuns k (d :: rest)

/-- Map every Python-whitespace code point to an ASCII space. -/
def wsToSpace (c : Nat) : Nat :=
  if isPyWs c then 32 else c

/-- The literal strip set `" \t\r\n "` of `_clean_line`. -/
def isStripSet (c : Nat) : Bool :=
  decide (c = 32 ∨ c = 9 ∨ c = 13 ∨ c = 10 ∨ c = 160)

/-- `_clean_line` from `extract_report_structure.py`:
`re.sub(r"\s+", " ", line).strip(" \t\r\n ")`. -/
def _clean_line (l : List Nat) : List Nat :=
  stripP isStripSet (squeezeRuns 32 (l.map wsToSpace))

/-- `re.sub(r"&", " and ", t)` as a per-character expansion. -/
def ampSub (c : Nat) : List Nat :=
  if c = 38 then strOf " and " else [c]

/-- One step of `re.sub(r"[^a-z0-9]+", "-", t)`: map each character
outside the class to a hyphen (runs are collapsed by `squeezeRuns`). -/
def hyCp (c : Nat) : Nat :=
  if isGoodCp c then c else 45

/-- The body of `_slugify` before the empty-result fallback:
lower-case, strip, expand `&`, hyphenate non-`[a-z0-9]` runs,
collapse hyphen runs, strip hyphens. -/
def slugCore (s : List Nat) : List Nat :=
  stripP (fun c => decide (c = 45))
    (squeezeRuns 45 (((stripP isPyWs (s.map lowerCp)).flatMap ampSub).map hyCp))

/-- `_slugify` from `build_redesigned_site.py`. -/
def _slugify (s : List Nat) : List Nat :=
  let t := slugCore s
  if t.isEmpty then strOf "section" else t

/-- Outline entry `(level, title, page)`; `title` is a code-point list,
`level` and `page` are Python ints. -/
structure TocEntry where
  level : Int
  title : List Nat
  page : Int
deriving DecidableEq, Repr

instance : Inhabited TocEntry := ⟨⟨1, [], 1⟩⟩

/-- `_compute_ranges` from `build_redesigned_site.py`: pair every
entry with its inclusive end page `max(e.page, next_page - 1)`, where
`next_page` is the next entry's page, or `last_page + 1` for the last
entry. -/
def _compute_ranges : List TocEntry → Int → List (TocEntry × Int)
  | [], _ => []
  | [e], lp => [(e, max e.page lp)]
  | e :: f :: rest, lp =>
    (e, max e.page (f.page - 1)) :: _compute_ranges (f :: rest) lp

/-- `nextStart` of the spec's range formula: the following entry's
page when it exists, else `pageCount + 1`. -/
def nextStart (entries : List TocEntry) (lp : Int) (i : Nat) : Int :=
  if i + 1 < entries.length then (entries.getD (i + 1) default).page else lp + 1

/-- `_compute_level1_title_ranges`: ranges of all level-1 entries,
keyed by title (association list; a Python dict comprehension keeps
the last binding of a duplicated key, which `dictGet` mirrors). -/
def _compute_level1_title_ranges (toc : List TocEntry) (lp : Int) :
    List (List Nat × Int × Int) :=
  (_compute_ranges (toc.filter (fun e => e.level == 1)) lp).map
    (fun p => (p.1.title, p.1.page, p.2))

/-- Lookup in an association list with Python-dict semantics:
the last binding of a key wins. -/
def dictGet (m : List (List Nat × Int × Int)) (k : List Nat) : Option (Int × Int) :=
  m.foldl (fun acc p => if p.1 = k then some p.2 else acc) none

/-- `_get_range_for_title` from `build_redesigned_site.py`: look the
title up, apply the "Executive Summary" / "Table of Contents"
disambiguation, then clamp into `[1, last_page]`. -/
def _get_range_for_title (ranges : List (List Nat × Int × Int))
    (title : List Nat) (lp : Int) : Option (Int × Int) :=
  match dictGet ranges title with
  | none => none
  | some (s0, e0) =>
    let p :=
      if title = strOf "Executive Summary" then
        let ts := ((dictGet ranges (strOf "Table of Contents")).getD (0, 0)).1
        if ts ≠ 0 then
          let s1 := if ts ≤ s0 ∧ 1 ≤ ts - 1 then ts - 1 else s0
          let e1 := if 1 ≤ ts - 1 then min e0 (ts - 1) else e0
          (s1, e1)
        else (s0, e0)
      else (s0, e0)
    let s2 := max 1 (min p.1 lp)
    some (s2, max s2 (min p.2 lp))

/-- Modelled from the spec: the "generic adjacency formula's result",
i.e. the lookup-then-clamp path of the resolver with no named-entry
special case applied. -/
def genericRangeForTitle (ranges : List (List Nat × Int × Int))
    (title : List Nat) (lp : Int) : Option (Int × Int) :=
  match dictGet ranges title with
  | none => none
  | some (s0, e0) =>
    let s2 := max 1 (min s0 lp)
    some (s2, max s2 (min e0 lp))

/-- A raw bookmark triple as returned by the document's outline
accessor (`doc.get_toc(simple=True)`). -/
structure RawBookmark where
  level : Int
  title : List Nat
  page : Int
deriving DecidableEq, Repr

/-- `_extract_outline_toc` from `extract_report_structure.py`: clean
each bookmark title and keep the entry exactly when the cleaned title
is non-empty, preserving order and passing the page through. -/
def _extract_outline_toc : List RawBookmark → List TocEntry
  | [] => []
  | b :: rest =>
    let t := _clean_line b.title
    if t.isEmpty then _extract_outline_toc rest
    else ⟨b.level, t, b.page⟩ :: _extract_outline_toc rest

/-- Modelled from the spec: the outline loader as described — the
input order filtered to bookmarks with a non-empty normalized title,
each mapped to an entry with the normalized title and untouched
level and page. -/
def specOutlineToc (bs : List RawBookmark) : List TocEntry :=
  (bs.filter (fun b => !(_clean_line b.title).isEmpty)).map
    (fun b => ⟨b.level, _clean_line b.title, b.page⟩)

/-- Strip trailing `.` and `·` leader characters:
`str.rstrip(".·")` in `_parse_toc_like_lines`. -/
def rstripDots (l : List Nat) : List Nat :=
  (dropLeadP (fun c => decide (c = 46 ∨ c = 183)) l.reverse).reverse

/-- Decimal value of an ASCII digit string (`int(...)` on the matched
page group). -/
def natOfDigits (l : List Nat) : Nat :=
  l.foldl (fun a d => a * 10 + (d - 48)) 0

/-- Match of `TOC_LINE_RE = ^(?P<title>.+?)\s+(?P<page>\d{1,4})\s*$`
on a `_clean_line`-normalized line.  On such a line (interior
whitespace is single ASCII spaces, no leading or trailing whitespace)
the lazy match succeeds exactly when the segment after the last space
is one to four ASCII digits, with the title group everything before
that space; returns `(title, digits)`. -/
def tocMatch (l : List Nat) : Option (List Nat × List Nat) :=
  let digits := (l.reverse.takeWhile (fun c => !(c == 32))).reverse
  match l.reverse.dropWhile (fun c => !(c == 32)) with
  | [] => none
  | _ :: before =>
    let title := before.reverse
    if digits ≠ [] ∧ digits.length ≤ 4 ∧ digits.all isDigitCp = true ∧ title ≠ []
    then some (title, digits) else none

/-- The per-line body of `_parse_toc_like_lines`: clean the raw line,
reject lines shorter than 6 characters, match `TOC_LINE_RE`, strip
leader dots from the title, re-clean it, and reject empty or purely
numeric titles. -/
def parseTocLine (raw : List Nat) : Option (List Nat × Nat) :=
  let line := _clean_line raw
  if line.length < 6 then none
  else
    match tocMatch line with
    | none => none
    | some (t, ds) =>
      let title := _clean_line (rstripDots t)
      if title = [] ∨ title.all isDigitCp then none
      else some (title, natOfDigits ds)

/-- A text span of a page: normalized-to-be text and font size.
Sizes are embedded as exact rationals. -/
structure RawSpan where
  text : List Nat
  size : ℚ
deriving DecidableEq

/-- The per-span cleaning pass of `_extract_big_text_candidates`:
clean each span's text and drop spans whose cleaned text is empty;
both the size list and the span list of the page are built from
exactly these survivors. -/
def cleanSpans (spans : List RawSpan) : List (List Nat × ℚ) :=
  spans.filterMap (fun s =>
    let t := _clean_line s.text
    if t.isEmpty then none else some (t, s.size))

/-- `sorted(sizes)[len(sizes) // 2]` — the upper median used by the
heading detector. -/
def pageMedian (sizes : List ℚ) : ℚ :=
  (List.insertionSort (· ≤ ·) sizes).getD (sizes.length / 2) 0

/-- The selection loop of `_extract_big_text_candidates`: keep spans
with size at least the threshold and text length at least 4, skipping
texts already seen on the page. -/
def pickCandidates (thr : ℚ) : List (List Nat × ℚ) → List (List Nat) → List (List Nat × ℚ)
  | [], _ => []
  | s :: rest, seen =>
    if s.2 < thr then pickCandidates thr rest seen
    else if s.1.length < 4 then pickCandidates thr rest seen
    else if s.1 ∈ seen then pickCandidates thr rest seen
    else s :: pickCandidates thr rest (s.1 :: seen)

/-- The per-page body of `_extract_big_text_candidates`: an empty
size list skips the page; otherwise the threshold is the page's
median size plus 3 and the selection loop runs with an empty seen
set. -/
def _extract_big_text_candidates (spans : List RawSpan) : List (List Nat × ℚ) :=
  let cleaned := cleanSpans spans
  if cleaned.isEmpty then []
  else pickCandidates (pageMedian (cleaned.map Prod.snd) + 3) cleaned []

/-- First-occurrence-wins deduplication by exact text, preserving
order. -/
def dedupFirst : List (List Nat) → List (List Nat × ℚ) → List (List Nat × ℚ)
  | _, [] => []
  | seen, s :: rest =>
    if s.1 ∈ seen then dedupFirst seen rest
    else s :: dedupFirst (s.1 :: seen) rest

/-- Modelled from the spec: flag exactly the spans with
`size ≥ median + 3` and normalized text length `≥ 4`, deduplicated by
exact text with the first occurrence winning, span order preserved. -/
def specBigTextCandidates (spans : List RawSpan) : List (List Nat × ℚ) :=
  let cleaned := cleanSpans spans
  if cleaned.isEmpty then []
  else
    let thr := pageMedian (cleaned.map Prod.snd) + 3
    dedupFirst [] (cleaned.filter (fun s => decide (thr ≤ s.2) && decide (4 ≤ s.1.length)))

/-- The partition property claimed for the range resolver: every
range has `startPage ≤ endPage`, adjacent ranges meet with no gap or
overlap, the first range starts at page 1, and the last range ends at
`pageCount`. -/
def rangesPartitionProp (entries : List TocEntry) (lp : Int) : Prop :=
  (∀ p ∈ _compute_ranges entries lp, p.1.page ≤ p.2) ∧
  List.Chain' (fun p q : TocEntry × Int => p.2 = q.1.page - 1) (_compute_ranges entries lp) ∧
  (_compute_ranges entries lp).head?.map (fun p => p.1.page) = some 1 ∧
  (_compute_ranges entries lp).getLast?.map Prod.snd = some lp

/-! ### Helper lemmas about the string pipeline -/

theorem mem_dropLeadP {p : Nat → Bool} {l : List Nat} {a : Nat}
    (h : a ∈ dropLeadP p l) : a ∈ l := by
  induction l with
  | nil => simpa [dropLeadP] using h
  | cons c rest ih =>
    by_cases hc : p c
    · simp only [dropLeadP, if_pos hc] at h
      exact List.mem_cons_of_mem _ (ih h)
    · simpa [dropLeadP, hc] using h

theorem head?_dropLeadP {p : Nat → Bool} {l : List Nat} {a : Nat}
    (h : (dropLeadP p l).head? = some a) : p a = false := by
  induction l with
  | nil => simp [dropLeadP] at h
  | cons c rest ih =>
    by_cases hc : p c
    · simp only [dropLeadP, if_pos hc] at h
      exact ih h
    · simp only [dropLeadP, if_neg hc, List.head?_cons, Option.some.injEq] at h
      subst h
      exact Bool.eq_false_iff.mpr hc

theorem dropLeadP_eq_self {p : Nat → Bool} {l : List Nat}
    (h : ∀ a, l.head? = some a → p a = false) : dropLeadP p l = l := by
  cases l with
  | nil => rfl
  | cons c rest =>
    have hc : p c = false := h c rfl
    simp [dropLeadP, hc]

theorem getLast?_dropLeadP {p : Nat → Bool} {l : List Nat}
    (h : dropLeadP p l ≠ []) : (dropLeadP p l).getLast? = l.getLast? := by
  induction l with
  | nil => simp [dropLeadP] at h
  | cons c rest ih =>
    by_cases hc : p c
    · simp only [dropLeadP, if_pos hc] at h ⊢
      cases rest with
      | nil => simp [dropLeadP] at h
      | cons d rest' => rw [ih h, List.getLast?_cons_cons]
    · simp [dropLeadP, hc]

theorem chain'_dropLeadP {R : Nat → Nat → Prop} {p : Nat → Bool} {l : List Nat}
    (h : List.Chain' R l) : List.Chain' R (dropLeadP p l) := by
  induction l with
  | nil => simpa [dropLeadP] using h
  | cons c rest ih =>
    by_cases hc : p c
    · simp only [dropLeadP, if_pos hc]
      exact ih h.tail
    · simpa [dropLeadP, hc] using h

theorem mem_stripP {p : Nat → Bool} {l : List Nat} {a : Nat}
    (h : a ∈ stripP p l) : a ∈ l := by
  unfold stripP at h
  rw [List.mem_reverse] at h
  have h2 := mem_dropLeadP h
  rw [List.mem_reverse] at h2
  exact mem_dropLeadP h2

theorem head?_stripP {p : Nat → Bool} {l : List Nat} {a : Nat}
    (h : (stripP p l).head? = some a) : p a = false := by
  unfold stripP at h
  rw [List.head?_reverse] at h
  have hne : dropLeadP p (dropLeadP p l).reverse ≠ [] := by
    intro he
    rw [he] at h
    simp at h
  rw [getLast?_dropLeadP hne, List.getLast?_reverse] at h
  exact head?_dropLeadP h

theorem getLast?_stripP {p : Nat → Bool} {l : List Nat} {a : Nat}
    (h : (stripP p l).getLast? = some a) : p a = false := by
  unfold stripP at h
  rw [List.getLast?_reverse] at h
  exact head?_dropLeadP h

theorem stripP_eq_self {p : Nat → Bool} {l : List Nat}
    (hh : ∀ a, l.head? = some a → p a = false)
    (hl : ∀ a, l.getLast? = some a → p a = false) : stripP p l = l := by
  unfold stripP
  rw [dropLeadP_eq_self hh, dropLeadP_eq_self (fun a ha => hl a (by rwa [List.head?_reverse] at ha)),
    List.reverse_reverse]

theorem stripP_eq_self_of_all {p : Nat → Bool} {l : List Nat}
    (h : ∀ a ∈ l, p a = false) : stripP p l = l :=
  stripP_eq_self
    (fun a ha => h a (by cases l with
      | nil => simp at ha
      | cons c rest => simp at ha; simp [ha]))
    (fun a ha => h a (List.mem_of_mem_getLast? ha))

theorem mem_squeezeRuns {k : Nat} {l : List Nat} {a : Nat}
    (h : a ∈ squeezeRuns k l) : a ∈ l := by
  induction l with
  | nil => simpa [squeezeRuns] using h
  | cons c rest ih =>
    cases rest with
    | nil => simpa [squeezeRuns] using h
    | cons d rest' =>
      by_cases hc : c = k ∧ d = k
      · simp only [squeezeRuns, if_pos hc] at h
        exact List.mem_cons_of_mem _ (ih h)
      · simp only [squeezeRuns, if_neg hc, List.mem_cons] at h
        rcases h with h | h
        · exact h ▸ List.mem_cons_self ..
        · exact List.mem_cons_of_mem _ (ih h)

theorem head?_squeezeRuns (k : Nat) (l : List Nat) :
    (squeezeRuns k l).head? = l.head? := by
  induction l with
  | nil => rfl
  | cons c rest ih =>
    cases rest with
    | nil => rfl
    | cons d rest' =>
      by_cases hc : c = k ∧ d = k
      · simp only [squeezeRuns, if_pos hc, ih, List.head?_cons]
        rw [hc.1, hc.2]
      · simp [squeezeRuns, hc]

theorem chain'_squeezeRuns (k : Nat) (l : List Nat) :
    List.Chain' (fun a b => ¬(a = k ∧ b = k)) (squeezeRuns k l) := by
  induction l with
  | nil => simp [squeezeRuns]
  | cons c rest ih =>
    cases rest with
    | nil => simp [squeezeRuns]
    | cons d rest' =>
      by_cases hc : c = k ∧ d = k
      · simpa only [squeezeRuns, if_pos hc] using ih
      · simp only [squeezeRuns, if_neg hc]
        rw [List.chain'_cons']
        refine ⟨fun y hy => ?_, ih⟩
        rw [head?_squeezeRuns, List.head?_cons, Option.mem_def, Option.some.injEq] at hy
        intro hck
        exact hc ⟨hck.1, hy ▸ hck.2⟩

theorem squeezeRuns_eq_self {k : Nat} {l : List Nat}
    (h : List.Chain' (fun a b => ¬(a = k ∧ b = k)) l) : squeezeRuns k l = l := by
  induction l with
  | nil => rfl
  | cons c rest ih =>
    cases rest with
    | nil => rfl
    | cons d rest' =>
      rw [List.chain'_cons] at h
      simp only [squeezeRuns, if_neg h.1]
      rw [ih h.2]

theorem map_eq_self_of_mem {f : Nat → Nat} {l : List Nat}
    (h : ∀ a ∈ l, f a = a) : l.map f = l := by
  induction l with
  | nil => rfl
  | cons c rest ih =>
    rw [List.map_cons, h c (List.mem_cons_self ..), ih (fun a ha => h a (List.mem_cons_of_mem _ ha))]

theorem flatMap_singleton_of_mem {f : Nat → List Nat} {l : List Nat}
    (h : ∀ a ∈ l, f a = [a]) : l.flatMap f = l := by
  induction l with
  | nil => rfl
  | cons c rest ih =>
    rw [List.flatMap_cons, h c (List.mem_cons_self ..),
      ih (fun a ha => h a (List.mem_cons_of_mem _ ha))]
    rfl

theorem chain'_flip_of_symm {k : Nat} {l : List Nat}
    (h : List.Chain' (fun a b => ¬(a = k ∧ b = k)) l) :
    List.Chain' (fun a b => ¬(a = k ∧ b = k)) l.reverse := by
  rw [List.chain'_reverse]
  exact h.imp (fun a b hab hx => hab ⟨hx.2, hx.1⟩)

theorem chain'_stripP {k : Nat} {p : Nat → Bool} {l : List Nat}
    (h : List.Chain' (fun a b => ¬(a = k ∧ b = k)) l) :
    List.Chain' (fun a b => ¬(a = k ∧ b = k)) (stripP p l) :=
  chain'_flip_of_symm (chain'_dropLeadP (chain'_flip_of_symm (chain'_dropLeadP h)))

/-- Every character of a slug is in `[a-z0-9]` or is a hyphen. -/
theorem slugCore_mem {t : List Nat} {c : Nat} (h : c ∈ slugCore t) :
    isGoodCp c = true ∨ c = 45 := by
  unfold slugCore at h
  have h1 := mem_squeezeRuns (mem_stripP h)
  rw [List.mem_map] at h1
  obtain ⟨x, _, hx⟩ := h1
  unfold hyCp at hx
  by_cases hg : isGoodCp x
  · rw [if_pos hg] at hx
    exact Or.inl (hx ▸ hg)
  · rw [if_neg hg] at hx
    exact Or.inr hx.symm

theorem lowerCp_fix {c : Nat} (h : isGoodCp c = true ∨ c = 45) : lowerCp c = c := by
  simp only [isGoodCp, decide_eq_true_eq] at h
  unfold lowerCp
  rw [if_neg]
  omega

theorem isPyWs_false_of {c : Nat} (h : isGoodCp c = true ∨ c = 45) : isPyWs c = false := by
  simp only [isGoodCp, decide_eq_true_eq] at h
  simp only [isPyWs, decide_eq_false_iff_not]
  omega

theorem ampSub_fix {c : Nat} (h : isGoodCp c = true ∨ c = 45) : ampSub c = [c] := by
  simp only [isGoodCp, decide_eq_true_eq] at h
  unfold ampSub
  rw [if_neg]
  omega

theorem hyCp_fix {c : Nat} (h : isGoodCp c = true ∨ c = 45) : hyCp c = c := by
  unfold hyCp
  rcases h with h | h
  · rw [if_pos h]
  · by_cases hg : isGoodCp c
    · rw [if_pos hg]
    · rw [if_neg hg, h]

/-- Structural facts about every slug: non-empty, over the slug
alphabet, no adjacent hyphens, no hyphen at either end. -/
theorem slug_facts (t : List Nat) :
    _slugify t ≠ [] ∧
    (∀ c ∈ _slugify t, isGoodCp c = true ∨ c = 45) ∧
    List.Chain' (fun a b => ¬(a = 45 ∧ b = 45)) (_slugify t) ∧
    (∀ a, (_slugify t).head? = some a → ¬a = 45) ∧
    (∀ a, (_slugify t).getLast? = some a → ¬a = 45) := by
  unfold _slugify
  by_cases he : (slugCore t).isEmpty
  · rw [if_pos he]
    refine ⟨by decide, by decide, by simp [strOf, List.chain'_cons], by decide, by decide⟩
  · rw [if_neg he]
    refine ⟨fun hn => he (by simp [hn]), fun c hc => slugCore_mem hc, ?_, ?_, ?_⟩
    · exact chain'_stripP (chain'_squeezeRuns 45 _)
    · intro a ha
      have := head?_stripP ha
      simpa using this
    · intro a ha
      have := getLast?_stripP ha
      simpa using this

/-- Applying the full slug pipeline to a slug changes nothing. -/
theorem slugCore_of_slug (t : List Nat) : slugCore (_slugify t) = _slugify t := by
  obtain ⟨hne, hmem, hchain, hhead, hlast⟩ := slug_facts t
  unfold slugCore
  rw [map_eq_self_of_mem (fun a ha => lowerCp_fix (hmem a ha))]
  rw [stripP_eq_self_of_all (fun a ha => isPyWs_false_of (hmem a ha))]
  rw [flatMap_singleton_of_mem (fun a ha => ampSub_fix (hmem a ha))]
  rw [map_eq_self_of_mem (fun a ha => hyCp_fix (hmem a ha))]
  rw [squeezeRuns_eq_self hchain]
  exact stripP_eq_self (fun a ha => by simpa using hhead a ha)
    (fun a ha => by simpa using hlast a ha)

/-- C9: the slug generator is idempotent — `_slugify (_slugify t) =
_slugify t` for every title `t`, even though the spec does not
require it. -/
theorem claim_C9 (t : List Nat) : _slugify (_slugify t) = _slugify t := by
  have hne := (slug_facts t).1
  have step : _slugify (_slugify t) =
      if (slugCore (_slugify t)).isEmpty then strOf "section" else slugCore (_slugify t) := rfl
  rw [step, slugCore_of_slug, if_neg (by simp only [List.isEmpty_eq_true]; exact hne)]

/-- C6: the slug generator lower-cases its input, translates `&` to
the word "and", replaces every run of characters outside `[a-z0-9]`
by a single hyphen, strips leading and trailing hyphens, returns the
fallback "section" when the result is empty, and is deterministic;
titles differing only in case or surrounding punctuation get the
same slug — "Appendix A!" and "appendix a" both map to
"appendix-a". -/
theorem claim_C6 :
    (∀ t, _slugify t = _slugify t) ∧
    (∀ t, _slugify t ≠ [] ∧
      (∀ c ∈ _slugify t, isGoodCp c = true ∨ c = 45) ∧
      List.Chain' (fun a b => ¬(a = 45 ∧ b = 45)) (_slugify t) ∧
      (∀ a, (_slugify t).head? = some a → ¬a = 45) ∧
      (∀ a, (_slugify t).getLast? = some a → ¬a = 45)) ∧
    _slugify (strOf "Appendix A!") = strOf "appendix-a" ∧
    _slugify (strOf "appendix a") = strOf "appendix-a" ∧
    _slugify (strOf "A & B") = strOf "a-and-b" ∧
    _slugify (strOf "!!!") = strOf "section" :=
  ⟨fun _ => rfl, slug_facts, by decide, by decide, by decide, by decide⟩

/-- Witness for C6 at the concrete title "Appendix A!", whose slug is
"appendix-a": its first and last characters are the letter `a`
(code 97), not hyphens, and `a` is in the slug alphabet. -/
theorem claim_C6_witness :
    (isGoodCp 97 = true ∨ 97 = 45) ∧ ¬97 = 45 ∧ ¬97 = 45 :=
  ⟨(claim_C6.2.1 (strOf "Appendix A!")).2.1 97 (by decide),
   (claim_C6.2.1 (strOf "Appendix A!")).2.2.2.1 97 (by decide),
   (claim_C6.2.1 (strOf "Appendix A!")).2.2.2.2 97 (by decide)⟩

theorem nextStart_cons (e f : TocEntry) (rest : List TocEntry) (lp : Int) (j : Nat) :
    nextStart (e :: f :: rest) lp (j + 1) = nextStart (f :: rest) lp j := by
  simp only [nextStart, List.length_cons, List.getD_cons_succ]
  by_cases hc : j + 1 < rest.length + 1
  · rw [if_pos (by omega), if_pos (by omega)]
  · rw [if_neg (by omega), if_neg (by omega)]

/-- C2: for every index `i`, the resolved range of entry `i` has
`startPage = entry[i].page` and
`endPage = max(entry[i].page, nextStart - 1)`, where `nextStart` is
the next entry's page when one exists and `pageCount + 1` for the
last entry. -/
theorem claim_C2 (entries : List TocEntry) (lp : Int) (i : Nat) (h : i < entries.length) :
    (_compute_ranges entries lp).getD i default =
      (entries.getD i default,
        max (entries.getD i default).page (nextStart entries lp i - 1)) := by
  induction entries generalizing i with
  | nil => simp at h
  | cons e rest ih =>
    cases rest with
    | nil =>
      obtain rfl : i = 0 := by simpa using h
      simp [_compute_ranges, nextStart]
    | cons f rest' =>
      cases i with
      | zero =>
        simp only [_compute_ranges, List.getD_cons_zero, nextStart]
        rw [if_pos (by simp)]
        simp
      | succ j =>
        have hj : j < (f :: rest').length := by
          simp only [List.length_cons] at h ⊢
          omega
        simp only [_compute_ranges, List.getD_cons_succ]
        rw [ih j hj, nextStart_cons]

/-- Witness for C2 at the two-entry list `[A@1, B@5]`, `pageCount
10`, index 0: range `(A, 4)`. -/
theorem claim_C2_witness :
    (_compute_ranges [⟨1, strOf "A", 1⟩, ⟨1, strOf "B", 5⟩] 10).getD 0 default =
      (([⟨1, strOf "A", 1⟩, ⟨1, strOf "B", 5⟩] : List TocEntry).getD 0 default,
        max (([⟨1, strOf "A", 1⟩, ⟨1, strOf "B", 5⟩] : List TocEntry).getD 0 default).page
          (nextStart [⟨1, strOf "A", 1⟩, ⟨1, strOf "B", 5⟩] 10 0 - 1)) :=
  claim_C2 [⟨1, strOf "A", 1⟩, ⟨1, strOf "B", 5⟩] 10 0 (by decide)

theorem compute_ranges_ne_nil {entries : List TocEntry} (h : entries ≠ []) (lp : Int) :
    _compute_ranges entries lp ≠ [] := by
  cases entries with
  | nil => exact absurd rfl h
  | cons e rest => cases rest <;> simp [_compute_ranges]

theorem compute_ranges_head? (e : TocEntry) (rest : List TocEntry) (lp : Int) :
    ∃ z, (_compute_ranges (e :: rest) lp).head? = some (e, z) := by
  cases rest <;> simp [_compute_ranges]

theorem compute_ranges_le {entries : List TocEntry} {lp : Int} {p : TocEntry × Int}
    (h : p ∈ _compute_ranges entries lp) : p.1.page ≤ p.2 := by
  induction entries with
  | nil => simp [_compute_ranges] at h
  | cons e rest ih =>
    cases rest with
    | nil =>
      simp only [_compute_ranges, List.mem_singleton] at h
      rw [h]
      exact le_max_left ..
    | cons f rest' =>
      rw [_compute_ranges] at h
      rcases List.mem_cons.mp h with h | h
      · rw [h]
        exact le_max_left ..
      · exact ih h

theorem compute_ranges_chain' {entries : List TocEntry} {lp : Int}
    (h : List.Chain' (fun a b => a.page < b.page) entries) :
    List.Chain' (fun p q : TocEntry × Int => p.2 = q.1.page - 1)
      (_compute_ranges entries lp) := by
  induction entries with
  | nil => simp [_compute_ranges]
  | cons e rest ih =>
    cases rest with
    | nil => simp [_compute_ranges]
    | cons f rest' =>
      rw [List.chain'_cons] at h
      rw [_compute_ranges, List.chain'_cons']
      refine ⟨fun q hq => ?_, ih h.2⟩
      obtain ⟨z, hz⟩ := compute_ranges_head? f rest' lp
      rw [hz, Option.mem_def, Option.some.injEq] at hq
      subst hq
      have h1 : e.page ≤ f.page - 1 := by omega
      exact max_eq_right h1

theorem compute_ranges_getLast? {entries : List TocEntry} {lp : Int}
    (hne : entries ≠ [])
    (hlast : (entries.getLast?.getD default).page ≤ lp) :
    (_compute_ranges entries lp).getLast?.map Prod.snd = some lp := by
  induction entries with
  | nil => exact absurd rfl hne
  | cons e rest ih =>
    cases rest with
    | nil =>
      simp only [List.getLast?_singleton, Option.getD_some] at hlast
      simp only [_compute_ranges, List.getLast?_singleton]
      rw [max_eq_right hlast]
      rfl
    | cons f rest' =>
      rw [_compute_ranges]
      have hne' : _compute_ranges (f :: rest') lp ≠ [] :=
        compute_ranges_ne_nil (by simp) lp
      obtain ⟨q, l', hq⟩ := List.exists_cons_of_ne_nil hne'
      rw [hq, List.getLast?_cons_cons, ← hq]
      rw [List.getLast?_cons_cons] at hlast
      exact ih (by simp) hlast

/-- C1 counterexample: the single-entry list `[A@2]` with page count
3 is a non-empty ordered entry list whose resolved ranges do *not*
partition `[1, 3]` — the first range starts at page 2, not page 1, so
page 1 is covered by no range. -/
theorem claim_C1_counterexample : ¬rangesPartitionProp [⟨1, strOf "A", 2⟩] 3 := by
  intro h
  have h3 := h.2.2.1
  revert h3
  decide

/-- C1, amended: for every non-empty entry list whose pages are
strictly increasing, whose first page is 1, and whose last page is at
most `pageCount`, the resolved ranges partition `[1, pageCount]`:
`startPage ≤ endPage` everywhere, each `endPage` is the next
`startPage − 1`, the first range starts at page 1 and the last ends
at `pageCount`. -/
theorem claim_C1_amended (entries : List TocEntry) (lp : Int)
    (hne : entries ≠ [])
    (hmono : List.Chain' (fun a b => a.page < b.page) entries)
    (hfirst : entries.head?.map TocEntry.page = some 1)
    (hlast : (entries.getLast?.getD default).page ≤ lp) :
    rangesPartitionProp entries lp := by
  refine ⟨fun p hp => compute_ranges_le hp, compute_ranges_chain' hmono, ?_,
    compute_ranges_getLast? hne hlast⟩
  obtain ⟨e, rest, rfl⟩ := List.exists_cons_of_ne_nil hne
  obtain ⟨z, hz⟩ := compute_ranges_head? e rest lp
  rw [hz]
  simp only [List.head?_cons] at hfirst
  simpa using hfirst

/-- Witness for the amended C1 at `[A@1, B@5]`, page count 10. -/
theorem claim_C1_witness :
    rangesPartitionProp [⟨1, strOf "A", 1⟩, ⟨1, strOf "B", 5⟩] 10 :=
  claim_C1_amended [⟨1, strOf "A", 1⟩, ⟨1, strOf "B", 5⟩] 10 (by decide)
    (by simp [List.chain'_cons]) (by decide) (by decide)

theorem getRange_bounds {m : List (List Nat × Int × Int)} {title : List Nat}
    {lp s' e' : Int} (hlp : 1 ≤ lp)
    (h : _get_range_for_title m title lp = some (s', e')) :
    1 ≤ s' ∧ s' ≤ e' ∧ e' ≤ lp := by
  unfold _get_range_for_title at h
  cases hd : dictGet m title with
  | none => rw [hd] at h; simp at h
  | some p =>
    obtain ⟨s0, e0⟩ := p
    rw [hd] at h
    simp only [Option.some.injEq, Prod.mk.injEq] at h
    obtain ⟨hs, he⟩ := h
    subst hs
    subst he
    refine ⟨le_max_left .., le_max_left .., ?_⟩
    exact max_le (max_le hlp (min_le_right ..)) (min_le_right ..)

/-- C10: on a map produced by `_compute_level1_title_ranges`, the
resolver returns `none` exactly when the title is absent, and
otherwise a pair `(start, end)` with
`1 ≤ start ≤ end ≤ last_page` — including when the
"Executive Summary" retargeting branch fires. -/
theorem claim_C10 (toc : List TocEntry) (lpm lp : Int) (title : List Nat) (hlp : 1 ≤ lp) :
    (_get_range_for_title (_compute_level1_title_ranges toc lpm) title lp = none ↔
      dictGet (_compute_level1_title_ranges toc lpm) title = none) ∧
    ∀ s e, _get_range_for_title (_compute_level1_title_ranges toc lpm) title lp = some (s, e) →
      1 ≤ s ∧ s ≤ e ∧ e ≤ lp := by
  refine ⟨⟨fun h => ?_, fun h => ?_⟩, fun s e h => getRange_bounds hlp h⟩
  · cases hd : dictGet (_compute_level1_title_ranges toc lpm) title with
    | none => rfl
    | some p =>
      obtain ⟨s0, e0⟩ := p
      unfold _get_range_for_title at h
      rw [hd] at h
      simp at h
  · unfold _get_range_for_title
    rw [h]

/-- Witness for C10: the map of the single entry `Findings@999` with
page count 50, looked up at page count 50. -/
theorem claim_C10_witness :
    (_get_range_for_title (_compute_level1_title_ranges [⟨1, strOf "Findings", 999⟩] 50)
        (strOf "Findings") 50 = none ↔
      dictGet (_compute_level1_title_ranges [⟨1, strOf "Findings", 999⟩] 50)
        (strOf "Findings") = none) ∧
    ∀ s e, _get_range_for_title (_compute_level1_title_ranges [⟨1, strOf "Findings", 999⟩] 50)
        (strOf "Findings") 50 = some (s, e) →
      1 ≤ s ∧ s ≤ e ∧ e ≤ 50 :=
  claim_C10 [⟨1, strOf "Findings", 999⟩] 50 50 (strOf "Findings") (by decide)

/-- C4: an entry whose nominal page exceeds the page count is
recovered by clamping, never rejected: the resolver always returns a
range inside `[1, last_page]`; for a title outside the special case
the result is exactly the clamp formula
`(max 1 (min s lp), max start (min e lp))`, and a nominal start past
the last page collapses to `(last_page, last_page)`; concretely, the
entry `Findings@999` in a 50-page document resolves to `(50, 50)`. -/
theorem claim_C4 :
    (∀ m title lp s e, 1 ≤ lp → dictGet m title = some (s, e) →
      (∃ s' e', _get_range_for_title m title lp = some (s', e') ∧
        1 ≤ s' ∧ s' ≤ e' ∧ e' ≤ lp) ∧
      (¬title = strOf "Executive Summary" →
        _get_range_for_title m title lp =
          some (max 1 (min s lp), max (max 1 (min s lp)) (min e lp)) ∧
        (lp < s → _get_range_for_title m title lp = some (lp, lp)))) ∧
    _get_range_for_title (_compute_level1_title_ranges [⟨1, strOf "Findings", 999⟩] 50)
      (strOf "Findings") 50 = some (50, 50) := by
  constructor
  · intro m title lp s e hlp hd
    constructor
    · have hform : ∃ s' e', _get_range_for_title m title lp = some (s', e') := by
        unfold _get_range_for_title
        rw [hd]
        exact ⟨_, _, rfl⟩
      obtain ⟨s', e', hse⟩ := hform
      obtain ⟨h1, h2, h3⟩ := getRange_bounds hlp hse
      exact ⟨s', e', hse, h1, h2, h3⟩
    · intro hne
      have hgen : _get_range_for_title m title lp =
          some (max 1 (min s lp), max (max 1 (min s lp)) (min e lp)) := by
        simp only [_get_range_for_title, hd, if_neg hne]
      refine ⟨hgen, fun hls => ?_⟩
      rw [hgen, min_eq_right (le_of_lt hls), max_eq_right hlp,
        max_eq_left (min_le_right ..)]
  · decide

/-- Witness for C4: the out-of-range entry `Findings@999` in a
50-page document. -/
theorem claim_C4_witness :
    (∃ s' e', _get_range_for_title (_compute_level1_title_ranges [⟨1, strOf "Findings", 999⟩] 50)
        (strOf "Findings") 50 = some (s', e') ∧ 1 ≤ s' ∧ s' ≤ e' ∧ e' ≤ 50) ∧
    _get_range_for_title (_compute_level1_title_ranges [⟨1, strOf "Findings", 999⟩] 50)
      (strOf "Findings") 50 = some (50, 50) :=
  ⟨(claim_C4.1 (_compute_level1_title_ranges [⟨1, strOf "Findings", 999⟩] 50)
      (strOf "Findings") 50 999 999 (by decide) (by decide)).1,
   ((claim_C4.1 (_compute_level1_title_ranges [⟨1, strOf "Findings", 999⟩] 50)
      (strOf "Findings") 50 999 999 (by decide) (by decide)).2 (by decide)).2 (by decide)⟩

/-- C3 counterexample: in the level-1 map of
`[Executive Summary@1, B@11, Table of Contents@5, C@13]` with page
count 20, the Executive Summary's nominal page 1 lies *before* the
contents page 5 and the contents page is not page 1, yet the
resolver does not keep the generic formula's result: it caps the end
at `contentsPage − 1 = 4` and returns `(1, 4)` where the generic
formula yields `(1, 10)`. -/
theorem claim_C3_counterexample :
    dictGet (_compute_level1_title_ranges
        [⟨1, strOf "Executive Summary", 1⟩, ⟨1, strOf "B", 11⟩,
         ⟨1, strOf "Table of Contents", 5⟩, ⟨1, strOf "C", 13⟩] 20)
      (strOf "Executive Summary") = some (1, 10) ∧
    ((dictGet (_compute_level1_title_ranges
        [⟨1, strOf "Executive Summary", 1⟩, ⟨1, strOf "B", 11⟩,
         ⟨1, strOf "Table of Contents", 5⟩, ⟨1, strOf "C", 13⟩] 20)
      (strOf "Table of Contents")).getD (0, 0)).1 = 5 ∧
    _get_range_for_title (_compute_level1_title_ranges
        [⟨1, strOf "Executive Summary", 1⟩, ⟨1, strOf "B", 11⟩,
         ⟨1, strOf "Table of Contents", 5⟩, ⟨1, strOf "C", 13⟩] 20)
      (strOf "Executive Summary") 20 = some (1, 4) ∧
    genericRangeForTitle (_compute_level1_title_ranges
        [⟨1, strOf "Executive Summary", 1⟩, ⟨1, strOf "B", 11⟩,
         ⟨1, strOf "Table of Contents", 5⟩, ⟨1, strOf "C", 13⟩] 20)
      (strOf "Executive Summary") 20 = some (1, 10) ∧
    ¬_get_range_for_title (_compute_level1_title_ranges
        [⟨1, strOf "Executive Summary", 1⟩, ⟨1, strOf "B", 11⟩,
         ⟨1, strOf "Table of Contents", 5⟩, ⟨1, strOf "C", 13⟩] 20)
      (strOf "Executive Summary") 20 =
      genericRangeForTitle (_compute_level1_title_ranges
        [⟨1, strOf "Executive Summary", 1⟩, ⟨1, strOf "B", 11⟩,
         ⟨1, strOf "Table of Contents", 5⟩, ⟨1, strOf "C", 13⟩] 20)
      (strOf "Executive Summary") 20 := by
  refine ⟨by decide, by decide, by decide, by decide, by decide⟩

/-- C3, amended: when the contents page `ts` is present and not the
first page (`2 ≤ ts`), the Executive Summary's end page is capped at
`ts − 1` *unconditionally*, while its start page is retargeted to
`ts − 1` exactly when its nominal start lies on or after `ts`; both
components are then clamped into `[1, last_page]`.  When the
contents entry is absent (`ts = 0`) or points at the first page
(`ts = 1`), the generic formula's result is kept unchanged. -/
theorem claim_C3_amended (m : List (List Nat × Int × Int)) (lp s e ts : Int)
    (hd : dictGet m (strOf "Executive Summary") = some (s, e))
    (hts : ts = ((dictGet m (strOf "Table of Contents")).getD (0, 0)).1) :
    (2 ≤ ts → ts ≤ s →
      _get_range_for_title m (strOf "Executive Summary") lp =
        some (max 1 (min (ts - 1) lp),
          max (max 1 (min (ts - 1) lp)) (min (min e (ts - 1)) lp))) ∧
    (2 ≤ ts → s < ts →
      _get_range_for_title m (strOf "Executive Summary") lp =
        some (max 1 (min s lp),
          max (max 1 (min s lp)) (min (min e (ts - 1)) lp))) ∧
    (ts = 0 ∨ ts = 1 →
      _get_range_for_title m (strOf "Executive Summary") lp =
        genericRangeForTitle m (strOf "Executive Summary") lp) := by
  have hES : strOf "Executive Summary" = strOf "Executive Summary" := rfl
  refine ⟨fun h2 hle => ?_, fun h2 hlt => ?_, fun h01 => ?_⟩
  · simp only [_get_range_for_title, hd, if_pos hES, ← hts]
    rw [if_pos (show ts ≠ 0 by omega),
      if_pos (show ts ≤ s ∧ 1 ≤ ts - 1 from ⟨hle, by omega⟩),
      if_pos (show (1 : Int) ≤ ts - 1 by omega)]
    simp
  · simp only [_get_range_for_title, hd, if_pos hES, ← hts]
    rw [if_pos (show ts ≠ 0 by omega),
      if_neg (show ¬(ts ≤ s ∧ 1 ≤ ts - 1) by omega),
      if_pos (show (1 : Int) ≤ ts - 1 by omega)]
    simp
  · simp only [_get_range_for_title, genericRangeForTitle, hd, if_pos hES, ← hts]
    rcases h01 with h0 | h1
    · rw [if_neg (show ¬ts ≠ 0 by omega)]
      simp
    · rw [if_pos (show ts ≠ 0 by omega),
        if_neg (show ¬(ts ≤ s ∧ 1 ≤ ts - 1) by omega),
        if_neg (show ¬(1 : Int) ≤ ts - 1 by omega)]
      simp

/-- Witness for the amended C3: a map where the Executive Summary's
range is `(3, 10)` and the contents page is 5 — the nominal start 3
is before the contents page, and the result keeps start 3 but caps
the end at 4. -/
theorem claim_C3_witness :
    _get_range_for_title
      [(strOf "Executive Summary", 3, 10), (strOf "Table of Contents", 5, 12)]
      (strOf "Executive Summary") 20 =
      some (max 1 (min 3 20), max (max 1 (min 3 20)) (min (min 10 (5 - 1)) 20)) :=
  (claim_C3_amended
    [(strOf "Executive Summary", 3, 10), (strOf "Table of Contents", 5, 12)]
    20 3 10 5 (by decide) (by decide)).2.1 (by decide) (by decide)

/-- C8: the outline loader preserves input order, normalizes each
title with the text normalizer, drops entries whose normalized title
is empty, performs no page validation (pages pass through unchanged),
and maps an empty bookmark list to an empty sequence. -/
theorem claim_C8 :
    (∀ bs, _extract_outline_toc bs = specOutlineToc bs) ∧
    _extract_outline_toc [] = [] := by
  refine ⟨fun bs => ?_, rfl⟩
  induction bs with
  | nil => rfl
  | cons b rest ih =>
    simp only [_extract_outline_toc, specOutlineToc, List.filter_cons]
    by_cases hb : (_clean_line b.title).isEmpty
    · rw [if_pos hb, hb]
      simpa [specOutlineToc] using ih
    · have hb' : (_clean_line b.title).isEmpty = false := by simpa using hb
      rw [if_neg hb, hb']
      simp only [Bool.not_false, if_true, List.map_cons]
      exact congrArg _ ih

theorem pickCandidates_eq (thr : ℚ) (l : List (List Nat × ℚ)) (seen : List (List Nat)) :
    pickCandidates thr l seen =
      dedupFirst seen (l.filter (fun s => decide (thr ≤ s.2) && decide (4 ≤ s.1.length))) := by
  induction l generalizing seen with
  | nil => rfl
  | cons s rest ih =>
    rw [pickCandidates, List.filter_cons]
    by_cases h1 : s.2 < thr
    · rw [if_pos h1]
      have : (decide (thr ≤ s.2) && decide (4 ≤ s.1.length)) = false := by
        simp [not_le.mpr h1]
      rw [this, if_neg (by simp)]
      exact ih seen
    · rw [if_neg h1]
      by_cases h2 : s.1.length < 4
      · rw [if_pos h2]
        have : (decide (thr ≤ s.2) && decide (4 ≤ s.1.length)) = false := by
          simp [Nat.not_le.mpr h2]
        rw [this, if_neg (by simp)]
        exact ih seen
      · rw [if_neg h2]
        have : (decide (thr ≤ s.2) && decide (4 ≤ s.1.length)) = true := by
          simp [not_lt.mp h1, Nat.not_lt.mp h2]
        rw [this, if_pos rfl, dedupFirst]
        by_cases h3 : s.1 ∈ seen
        · rw [if_pos h3, if_pos h3]
          exact ih seen
        · rw [if_neg h3, if_neg h3, ih (s.1 :: seen)]

/-- C5: on every page the heading detector flags exactly the spans
whose size is at least the page median plus 3 and whose normalized
text has length at least 4, deduplicated by exact text with the first
occurrence winning, in span order; a page with sizes
`[10, 10, 10, 24]` flags only the size-24 span, and a page with no
spans yields no candidates. -/
theorem claim_C5 :
    (∀ spans, _extract_big_text_candidates spans = specBigTextCandidates spans) ∧
    _extract_big_text_candidates [] = [] ∧
    _extract_big_text_candidates
      [⟨strOf "aaaa", 10⟩, ⟨strOf "bbbb", 10⟩, ⟨strOf "cccc", 10⟩, ⟨strOf "dddd", 24⟩] =
      [(strOf "dddd", 24)] := by
  refine ⟨fun spans => ?_, rfl, ?_⟩
  · unfold _extract_big_text_candidates specBigTextCandidates
    by_cases h : (cleanSpans spans).isEmpty
    · rw [if_pos h, if_pos h]
    · rw [if_neg h, if_neg h, pickCandidates_eq]
  · have hclean : cleanSpans
        [⟨strOf "aaaa", 10⟩, ⟨strOf "bbbb", 10⟩, ⟨strOf "cccc", 10⟩, ⟨strOf "dddd", 24⟩] =
        [(strOf "aaaa", (10 : ℚ)), (strOf "bbbb", 10), (strOf "cccc", 10),
         (strOf "dddd", 24)] := by
      rfl
    have hmed : pageMedian [(10 : ℚ), 10, 10, 24] + 3 = 13 := by norm_num [pageMedian]
    simp only [_extract_big_text_candidates, hclean, List.map_cons, List.map_nil,
      List.isEmpty_cons, Bool.false_eq_true, if_false]
    rw [hmed]
    rfl

theorem dropWhile_cons_head {p : Nat → Bool} {l : List Nat} {x : Nat} {xs : List Nat}
    (h : l.dropWhile p = x :: xs) : p x = false := by
  induction l with
  | nil => simp at h
  | cons c rest ih =>
    rw [List.dropWhile_cons] at h
    by_cases hc : p c
    · rw [if_pos hc] at h
      exact ih h
    · rw [if_neg hc] at h
      obtain ⟨rfl, -⟩ := List.cons.injEq .. ▸ h
      exact Bool.eq_false_iff.mpr hc

/-- A successful `TOC_LINE_RE` match decomposes the normalized line
as `title ++ ' ' ++ digits` with one to four ASCII digits and a
non-empty title. -/
theorem tocMatch_some {l t ds : List Nat} (h : tocMatch l = some (t, ds)) :
    l = t ++ 32 :: ds ∧ ds ≠ [] ∧ ds.length ≤ 4 ∧ ds.all isDigitCp = true ∧ t ≠ [] := by
  unfold tocMatch at h
  cases hr : l.reverse.dropWhile (fun c => !(c == 32)) with
  | nil => rw [hr] at h; simp at h
  | cons x before =>
    rw [hr] at h
    simp only [] at h
    by_cases hc : (l.reverse.takeWhile (fun c => !(c == 32))).reverse ≠ [] ∧
        (l.reverse.takeWhile (fun c => !(c == 32))).reverse.length ≤ 4 ∧
        (l.reverse.takeWhile (fun c => !(c == 32))).reverse.all isDigitCp = true ∧
        before.reverse ≠ []
    · rw [if_pos hc] at h
      simp only [Option.some.injEq, Prod.mk.injEq] at h
      obtain ⟨rfl, rfl⟩ := h
      have hx : x = 32 := by
        have := dropWhile_cons_head hr
        simpa using this
      subst hx
      refine ⟨?_, hc.1, hc.2.1, hc.2.2.1, hc.2.2.2⟩
      · have hdec := List.takeWhile_append_dropWhile
          (p := fun c : Nat => !(c == 32)) (l := l.reverse)
        rw [hr] at hdec
        calc l = l.reverse.reverse := (List.reverse_reverse l).symm
          _ = (l.reverse.takeWhile (fun c => !(c == 32)) ++ 32 :: before).reverse := by
              rw [hdec]
          _ = before.reverse ++ 32 :: (l.reverse.takeWhile (fun c => !(c == 32))).reverse := by
              simp
    · rw [if_neg hc] at h
      simp at h

/-- C7: the contents-line parser accepts a line only if its
normalized form is at least 6 characters and splits as
"title, space, one-to-four-digit number, end of line" with a title
that, after trimming trailing leader dots and re-normalizing, is
neither empty nor purely numeric; it rejects "42" and "Q 3" and
accepts "Introduction 12" as title "Introduction", page 12. -/
theorem claim_C7 :
    (∀ l t p, parseTocLine l = some (t, p) →
      6 ≤ (_clean_line l).length ∧
      ∃ title digits, _clean_line l = title ++ 32 :: digits ∧
        digits ≠ [] ∧ digits.length ≤ 4 ∧ digits.all isDigitCp = true ∧
        t = _clean_line (rstripDots title) ∧ t ≠ [] ∧ ¬t.all isDigitCp = true ∧
        p = natOfDigits digits) ∧
    parseTocLine (strOf "42") = none ∧
    parseTocLine (strOf "Q 3") = none ∧
    parseTocLine (strOf "Introduction 12") = some (strOf "Introduction", 12) := by
  refine ⟨fun l t p h => ?_, by decide, by decide, by decide⟩
  unfold parseTocLine at h
  by_cases h6 : (_clean_line l).length < 6
  · rw [if_pos h6] at h
    simp at h
  · rw [if_neg h6] at h
    cases hm : tocMatch (_clean_line l) with
    | none => rw [hm] at h; simp at h
    | some q =>
      obtain ⟨t0, ds⟩ := q
      rw [hm] at h
      simp only [] at h
      by_cases hbad : _clean_line (rstripDots t0) = [] ∨
          (_clean_line (rstripDots t0)).all isDigitCp = true
      · rw [if_pos hbad] at h
        simp at h
      · rw [if_neg hbad] at h
        simp only [Option.some.injEq, Prod.mk.injEq] at h
        obtain ⟨rfl, rfl⟩ := h
        obtain ⟨hdec, hne, hlen, hdig, htne⟩ := tocMatch_some hm
        push_neg at hbad
        exact ⟨by omega, t0, ds, hdec, hne, hlen, hdig, rfl, hbad.1, hbad.2, rfl⟩

/-- Witness for C7 at the accepted line "Introduction 12". -/
theorem claim_C7_witness :
    6 ≤ (_clean_line (strOf "Introduction 12")).length ∧
    ∃ title digits, _clean_line (strOf "Introduction 12") = title ++ 32 :: digits ∧
      digits ≠ [] ∧ digits.length ≤ 4 ∧ digits.all isDigitCp = true ∧
      strOf "Introduction" = _clean_line (rstripDots title) ∧ strOf "Introduction" ≠ [] ∧
      ¬(strOf "Introduction").all isDigitCp = true ∧ 12 = natOfDigits digits :=
  claim_C7.1 (strOf "Introduction 12") (strOf "Introduction") 12 (by decide)
